import Mathlib

/-!
# Verification of the MedPC log parser (`lerner_lab_to_nwb/seiler_2024/medpc.py`)

This file gives a shallow embedding of the three functions of `medpc.py` —
`get_medpc_variables`, `get_session_lines` and `read_medpc_file` — and proves
properties of them.  Lines of the log file are modelled as `String`s (as
produced by Python's `readlines`, so a line normally keeps its trailing
newline); Python string primitives (`strip`, `rstrip`, `split`, `find`,
`startswith`) are modelled character-exactly below; Python dicts are modelled
as association lists that preserve insertion order; exceptions are modelled
with `Except` and an explicit error type.  Numeric values parsed by
`np.array(…, dtype=float)` are modelled as exact decimals over `ℚ`.
-/

namespace MedPC

/-- The whitespace characters stripped by Python's `str.strip()` (ASCII part). -/
def isPyWs (c : Char) : Bool :=
  c = ' ' || c = '\t' || c = '\n' || c = '\r' || c = '\x0b' || c = '\x0c'

/-- `str.strip()` on a character list. -/
def pyStripL (cs : List Char) : List Char :=
  ((cs.dropWhile isPyWs).reverse.dropWhile isPyWs).reverse

/-- Python `str.strip()`. -/
def pyStrip (s : String) : String :=
  (pyStripL s.toList).asString

/-- Python `str.rstrip()`. -/
def pyRstrip (s : String) : String :=
  (s.toList.reverse.dropWhile isPyWs).reverse.asString

/-- Python `s.startswith(pre)`. -/
def pyStartsWith (s pre : String) : Bool :=
  pre.toList.isPrefixOf s.toList

/-- Character index of the first occurrence of `c` in `cs`
(Python `s.find(c)`, with `none` for `-1`). -/
def charIdx (c : Char) : List Char → Option Nat
  | [] => none
  | a :: as => if a = c then some 0 else (charIdx c as).map (· + 1)

/-- Position of the first `':'` in a line — models Python `line.find(":")`
and `":" in line` (the latter as `isSome`). -/
def firstColonIdx (s : String) : Option Nat :=
  charIdx ':' s.toList

/-- The text before the first `':'` — `line.split(":")[0]`, and also the first
component of `line.split(":", maxsplit=1)`.  If the line has no colon this is
the whole line, exactly as in Python's `split`. -/
def beforeColon (s : String) : String :=
  (s.toList.takeWhile (fun c => ¬ c = ':')).asString

/-- The text after the first `':'` — the second component of
`line.split(":", maxsplit=1)`, meaningful only when the line has a colon. -/
def afterColon (s : String) : String :=
  ((s.toList.dropWhile (fun c => ¬ c = ':')).drop 1).asString

/-- Python `s.split(c)` for a single-character separator: splits at **every**
occurrence, keeping empty pieces (`"a  b".split(" ") = ["a", "", "b"]`). -/
def splitChar (c : Char) : List Char → List (List Char)
  | [] => [[]]
  | a :: as =>
    if a = c then [] :: splitChar c as
    else
      match splitChar c as with
      | t :: ts => (a :: t) :: ts
      | [] => [[a]]

/-- Membership of a string in a list of strings (Python `in` on dict keys /
`list.__contains__`). -/
def memS (k : String) : List String → Bool
  | [] => false
  | a :: as => if a = k then true else memS k as

/-- Lookup in an insertion-ordered association list (Python `d[k]` /
`d.get(k)`). -/
def alookup {α : Type} : List (String × α) → String → Option α
  | [], _ => none
  | (k', v) :: rest, k => if k' = k then some v else alookup rest k

/-- Python `d[k] = v` on an insertion-ordered dict: replaces the value in
place if the key exists, otherwise appends the new key at the end. -/
def updateAssoc {α : Type} : List (String × α) → String → α → List (String × α)
  | [], k, v => [(k, v)]
  | (k', v') :: rest, k, v =>
    if k' = k then (k, v) :: rest else (k', v') :: updateAssoc rest k v

/-- All the ways the Python code can raise, modelled explicitly.
`sessionNotFound` and `startNotFound` are the two `ValueError`s of
`get_session_lines` (each message carries the session conditions);
`assertNoColon` is the `AssertionError` of `read_medpc_file`'s colon assert;
`nameError` is the `UnboundLocalError` on `multiline_variable_name`;
`attrError`/`keyError`/`indexError` model the corresponding built-in Python
exceptions; `typeMismatch` is the `ValueError` "Expected … to be a multiline
variable, but found a single line variable" (carrying the field name);
`strptimeError`/`floatError`/`pyTypeError` model failures of
`datetime.strptime` and `np.array(…, dtype=float)`. -/
inductive MedError : Type
  | sessionNotFound (conds : List (String × String))
  | startNotFound (startVar : String) (conds : List (String × String))
  | assertNoColon (line : String)
  | nameError
  | attrError
  | keyError
  | indexError
  | typeMismatch (dictName : String)
  | strptimeError (s : String)
  | floatError (s : String)
  | pyTypeError
deriving DecidableEq, Repr

instance {ε α : Type} [DecidableEq ε] [DecidableEq α] : DecidableEq (Except ε α) :=
  fun a b =>
    match a, b with
    | .ok x, .ok y =>
      if h : x = y then .isTrue (by rw [h]) else .isFalse (by intro hc; cases hc; exact h rfl)
    | .ok _, .error _ => .isFalse (by intro hc; cases hc)
    | .error _, .ok _ => .isFalse (by intro hc; cases hc)
    | .error x, .error y =>
      if h : x = y then .isTrue (by rw [h]) else .isFalse (by intro hc; cases hc; exact h rfl)

/-! ## `get_session_lines` (medpc.py lines 31–79) -/

/-- One pass of the inner `for condition_name, condition_value in
session_conditions.items()` loop of `get_session_lines`: each condition whose
`"{key}: {value}"` rendering equals the stripped line is marked met (we record
met condition *keys* in a list; the Python code keeps a dict of booleans). -/
def condStep (s : String) : List (String × String) → List String → List String
  | [], met => met
  | kv :: rest, met =>
    condStep s rest (if s = kv.1 ++ ": " ++ kv.2 then kv.1 :: met else met)

/-- `all(session_condition_has_been_met.values())`. -/
def allMet (conds : List (String × String)) (met : List String) : Bool :=
  conds.all fun kv => memS kv.1 met

/-- Outcome of the scanning loop of `get_session_lines`: either the `break`
at a satisfying blank line (carrying `start_line` and `end_line = i`), or the
fall-through at end of file (carrying the final flags and `start_line`). -/
inductive ScanOut : Type
  | found (startLine : Option Nat) (endLine : Nat)
  | eof (met : List String) (startLine : Option Nat)
deriving DecidableEq, Repr

/-- The `for i, line in enumerate(lines)` loop of `get_session_lines`,
embedded line by line: strip the line; a line whose stripped form starts with
`"{start_variable}:"` overwrites `start_line`; conditions are matched against
the stripped line; a blank (empty after strip) line with all conditions met
breaks with `end_line = i`; a blank line otherwise resets all flags and
`start_line`. -/
def scanSession (conds : List (String × String)) (startVar : String) :
    List String → Nat → List String → Option Nat → ScanOut
  | [], _, met, sl => .eof met sl
  | l :: rest, i, met, sl =>
    let s := pyStrip l
    let sl' := if pyStartsWith s (startVar ++ ":") then some i else sl
    let met' := condStep s conds met
    if s = "" then
      if allMet conds met' then .found sl' i
      else scanSession conds startVar rest (i + 1) [] none
    else scanSession conds startVar rest (i + 1) met' sl'

/-- `get_session_lines(lines, session_conditions, start_variable)`
(medpc.py 31–79).  Returns `lines[start_line:end_line]`, or the
session-not-found `ValueError` when the flags are not all set after the loop,
or the start-variable-not-found `ValueError` when `start_line is None`. -/
def get_session_lines (lines : List String) (session_conditions : List (String × String))
    (start_variable : String) : Except MedError (List String) :=
  match scanSession session_conditions start_variable lines 0 [] none with
  | .found sl e =>
    match sl with
    | some s => .ok ((lines.drop s).take (e - s))
    | none => .error (.startNotFound start_variable session_conditions)
  | .eof met sl =>
    if allMet session_conditions met then
      match sl with
      | some s => .ok (lines.drop s)
      | none => .error (.startNotFound start_variable session_conditions)
    else .error (.sessionNotFound session_conditions)

/-! ## Reference state machines for the SessionLocator (spec §4.1) -/

/-- Trimming only the trailing newline of a line — the normalization the spec
literally names for condition matching ("after trimming trailing newline"). -/
def trimNewline (s : String) : String :=
  if s.toList.getLast? = some '\n' then s.toList.dropLast.asString else s

/-- The SessionLocator reference machine with the spec's *literal*
normalizations: a condition flag is set when the line **after trimming only
the trailing newline** equals `"{key}: {value}"`; the start marker test is a
prefix test on the raw line; a line is blank when empty after stripping.
Returns `(candidate_start, end_index)` at the first satisfying blank line,
treats EOF as a terminator when all conditions are satisfied there, and
returns `none` when no block satisfies. -/
def locateLiteralAux (conds : List (String × String)) (startVar : String) :
    List String → Nat → List String → Option Nat → Option (Option Nat × Nat)
  | [], i, met, sl => if allMet conds met then some (sl, i) else none
  | l :: rest, i, met, sl =>
    let sl' := if pyStartsWith l (startVar ++ ":") then some i else sl
    let met' := condStep (trimNewline l) conds met
    if pyStrip l = "" then
      if allMet conds met' then some (sl', i)
      else locateLiteralAux conds startVar rest (i + 1) [] none
    else locateLiteralAux conds startVar rest (i + 1) met' sl'

/-- The SessionLocator reference machine of the claim C1, with the claim's
literal "trim the trailing newline" normalization for condition matching. -/
def locate_spec_literal (lines : List String) (conds : List (String × String))
    (sv : String) : Option (Option Nat × Nat) :=
  locateLiteralAux conds sv lines 0 [] none

/-- The SessionLocator reference machine with the *amended* normalization:
every per-line test (condition equality, start-marker prefix, blankness) is
performed on the line stripped of leading and trailing whitespace. -/
def locateStrippedAux (conds : List (String × String)) (startVar : String) :
    List String → Nat → List String → Option Nat → Option (Option Nat × Nat)
  | [], i, met, sl => if allMet conds met then some (sl, i) else none
  | l :: rest, i, met, sl =>
    let s := pyStrip l
    let sl' := if pyStartsWith s (startVar ++ ":") then some i else sl
    let met' := condStep s conds met
    if s = "" then
      if allMet conds met' then some (sl', i)
      else locateStrippedAux conds startVar rest (i + 1) [] none
    else locateStrippedAux conds startVar rest (i + 1) met' sl'

/-- The amended SessionLocator reference machine (spec §4.1 with stripping). -/
def locate_spec_stripped (lines : List String) (conds : List (String × String))
    (sv : String) : Option (Option Nat × Nat) :=
  locateStrippedAux conds sv lines 0 [] none

/-- Reading a locator result `(candidate_start, end_index)` back as the
line-slice/error behaviour of `get_session_lines`: slice
`lines[start:end]` on success, session-not-found when no block satisfies,
start-not-found when the candidate start is unset. -/
def interpLoc (r : Option (Option Nat × Nat)) (lines : List String)
    (conds : List (String × String)) (sv : String) : Except MedError (List String) :=
  match r with
  | none => .error (.sessionNotFound conds)
  | some (none, _) => .error (.startNotFound sv conds)
  | some (some s, e) => .ok ((lines.drop s).take (e - s))

theorem take_length_drop {α : Type} (l : List α) (s : Nat) :
    (l.drop s).take (l.length - s) = l.drop s := by
  rw [← List.length_drop s l]
  exact List.take_length (l.drop s)

theorem locateStrippedAux_eq_scan (conds : List (String × String)) (sv : String) :
    ∀ (rest : List String) (i : Nat) (met : List String) (sl : Option Nat),
      locateStrippedAux conds sv rest i met sl =
        (match scanSession conds sv rest i met sl with
         | .found s e => some (s, e)
         | .eof met' sl' => if allMet conds met' then some (sl', i + rest.length) else none) := by
  intro rest
  induction rest with
  | nil => intro i met sl; simp [locateStrippedAux, scanSession]
  | cons l rest ih =>
    intro i met sl
    have harith : i + 1 + rest.length = i + (l :: rest).length := by
      simp [List.length_cons]; omega
    simp only [locateStrippedAux, scanSession]
    by_cases hblank : pyStrip l = ""
    · simp only [hblank]
      by_cases hall : allMet conds (condStep "" conds met)
      · simp [hall]
      · simp only [hall, Bool.false_eq_true, if_false, if_true, ih, harith]
    · simp only [if_neg hblank, ih, harith]

/-- C1 (amended): `get_session_lines` conforms to the reference state machine
of spec §4.1 once every per-line test (condition equality, start-marker
prefix, blankness) is performed on the line stripped of leading **and
trailing whitespace** (the code uses Python `str.strip()`), rather than on
the line with only its trailing newline trimmed: the scan sets a condition
flag exactly when a stripped line equals `"{key}: {value}"`, the most recent
start marker before the satisfying blank line wins, the scan returns at the
first blank line at which all flags are set with the slice
`lines[candidate_start:end_index]`, and end-of-file acts as a terminator when
all flags are set there. -/
theorem get_session_lines_conforms_stripped_machine
    (lines : List String) (conds : List (String × String)) (sv : String) :
    get_session_lines lines conds sv = interpLoc (locate_spec_stripped lines conds sv) lines conds sv := by
  unfold get_session_lines locate_spec_stripped
  rw [locateStrippedAux_eq_scan]
  cases h : scanSession conds sv lines 0 [] none with
  | found sl e => cases sl <;> simp [interpLoc]
  | eof met sl =>
    by_cases hall : allMet conds met
    · cases sl with
      | none => simp [hall, interpLoc]
      | some s => simp [hall, interpLoc, take_length_drop]
    · simp [hall, interpLoc]

/-- C1 (counterexample): with the spec's literal "trim only the trailing
newline" normalization the reference machine disagrees with the code.  On the
file `["A: 1 \n", "\n"]` (note the trailing space before the newline) with
condition `A = 1`, the code strips the line to `"A: 1"`, matches the
condition and returns the first line, while the literal reference machine
compares `"A: 1 "` with `"A: 1"`, never sets the flag, and reports
session-not-found.  Hence `get_session_lines` does not conform to the
reference machine as literally stated. -/
theorem get_session_lines_literal_machine_refuted :
    ¬ (∀ (lines : List String) (conds : List (String × String)) (sv : String),
        get_session_lines lines conds sv = interpLoc (locate_spec_literal lines conds sv) lines conds sv) := by
  intro h
  have hx := h ["A: 1 \n", "\n"] [("A", "1")] "A"
  have hcode : get_session_lines ["A: 1 \n", "\n"] [("A", "1")] "A" = .ok ["A: 1 \n"] := by decide
  have hspec : locate_spec_literal ["A: 1 \n", "\n"] [("A", "1")] "A" = none := by decide
  rw [hcode, hspec] at hx
  exact Except.noConfusion hx

/-! ## Session blocks: predicates used to state the locator's guarantees -/

/-- Line `b` of the file is blank (empty after stripping). -/
def isBlankAt (lines : List String) (b : Nat) : Prop :=
  pyStrip (lines.getD b "") = ""

/-- Line `j` of the file, after stripping, is exactly `"{k}: {v}"`. -/
def matchesAt (lines : List String) (j : Nat) (k v : String) : Prop :=
  pyStrip (lines.getD j "") = k ++ ": " ++ v

/-- Condition `k = v` is matched inside the block terminated at `e`: some line
strictly before `e` and strictly after every blank line before `e` equals
`"{k}: {v}"` after stripping. -/
def matchedInBlock (lines : List String) (e : Nat) (k v : String) : Prop :=
  ∃ j ∈ List.range e, matchesAt lines j k v ∧
    ∀ b ∈ List.range e, isBlankAt lines b → b < j

/-- Every supplied condition is matched inside the block terminated at `e`. -/
def blockSatisfies (lines : List String) (conds : List (String × String)) (e : Nat) : Prop :=
  ∀ kv ∈ conds, matchedInBlock lines e kv.1 kv.2

/-- `e` terminates a block: it is a blank line, or end of file. -/
def isTerminator (lines : List String) (e : Nat) : Prop :=
  e = lines.length ∨ (e < lines.length ∧ isBlankAt lines e)

instance (lines : List String) (b : Nat) : Decidable (isBlankAt lines b) :=
  decidable_of_iff (pyStrip (lines.getD b "") = "") Iff.rfl

instance (lines : List String) (j : Nat) (k v : String) : Decidable (matchesAt lines j k v) :=
  decidable_of_iff (pyStrip (lines.getD j "") = k ++ ": " ++ v) Iff.rfl

instance (lines : List String) (e : Nat) (k v : String) : Decidable (matchedInBlock lines e k v) :=
  decidable_of_iff
    (∃ j ∈ List.range e, matchesAt lines j k v ∧ ∀ b ∈ List.range e, isBlankAt lines b → b < j)
    Iff.rfl

instance (lines : List String) (conds : List (String × String)) (e : Nat) :
    Decidable (blockSatisfies lines conds e) :=
  decidable_of_iff (∀ kv ∈ conds, matchedInBlock lines e kv.1 kv.2) Iff.rfl

instance (lines : List String) (e : Nat) : Decidable (isTerminator lines e) :=
  decidable_of_iff (e = lines.length ∨ (e < lines.length ∧ isBlankAt lines e)) Iff.rfl

/-- The condition keys of a Python dict are pairwise distinct; this Bool
captures that side condition on our association-list model. -/
def keyAbsent (k : String) : List (String × String) → Bool
  | [] => true
  | kv :: rest => if kv.1 = k then false else keyAbsent k rest

/-- Pairwise-distinct condition keys (what a Python dict guarantees). -/
def keysDistinct : List (String × String) → Bool
  | [] => true
  | kv :: rest => keyAbsent kv.1 rest && keysDistinct rest

theorem keyAbsent_spec {k : String} :
    ∀ {l : List (String × String)}, keyAbsent k l = true → ∀ kv ∈ l, ¬ kv.1 = k := by
  intro l
  induction l with
  | nil => intro _ kv h; cases h
  | cons kv0 rest ih =>
    intro h kv hm
    simp only [keyAbsent] at h
    by_cases h0 : kv0.1 = k
    · rw [if_pos h0] at h; cases h
    · rw [if_neg h0] at h
      rcases List.mem_cons.mp hm with rfl | hm'
      · exact h0
      · exact ih h kv hm'

theorem keysDistinct_unique :
    ∀ {conds : List (String × String)}, keysDistinct conds = true →
      ∀ kv ∈ conds, ∀ kv' ∈ conds, kv.1 = kv'.1 → kv = kv' := by
  intro conds
  induction conds with
  | nil => intro _ kv h; cases h
  | cons kv0 rest ih =>
    intro h kv hm kv' hm' hk
    simp only [keysDistinct, Bool.and_eq_true] at h
    rcases List.mem_cons.mp hm with rfl | hmr
    · rcases List.mem_cons.mp hm' with rfl | hmr'
      · rfl
      · exact absurd hk.symm (keyAbsent_spec h.1 kv' hmr')
    · rcases List.mem_cons.mp hm' with rfl | hmr'
      · exact absurd hk (keyAbsent_spec h.1 kv hmr)
      · exact ih h.2 kv hmr kv' hmr' hk

/-! ## Helper lemmas about `drop`, `memS`, `condStep`, `allMet` -/

theorem drop_cons_getD {α : Type} (d : α) :
    ∀ (l : List α) (i : Nat) (a : α) (t : List α), l.drop i = a :: t → l.getD i d = a := by
  intro l
  induction l with
  | nil => intro i a t h; simp at h
  | cons x xs ih =>
    intro i a t h
    cases i with
    | zero => simp at h ⊢; exact h.1
    | succ n =>
      simp only [List.drop_succ_cons] at h
      simpa [List.getD_cons_succ] using ih n a t h

theorem drop_cons_drop {α : Type} :
    ∀ (l : List α) (i : Nat) (a : α) (t : List α), l.drop i = a :: t → l.drop (i + 1) = t := by
  intro l
  induction l with
  | nil => intro i a t h; simp at h
  | cons x xs ih =>
    intro i a t h
    cases i with
    | zero => simp at h ⊢; exact h.2
    | succ n =>
      simp only [List.drop_succ_cons] at h ⊢
      exact ih n a t h

theorem drop_cons_lt {α : Type} (l : List α) (i : Nat) (a : α) (t : List α)
    (h : l.drop i = a :: t) : i < l.length := by
  by_contra hge
  push_neg at hge
  rw [List.drop_eq_nil_of_le hge] at h
  cases h

theorem memS_iff (k : String) : ∀ (l : List String), memS k l = true ↔ k ∈ l := by
  intro l
  induction l with
  | nil => simp [memS]
  | cons a as ih =>
    simp only [memS]
    by_cases h : a = k
    · simp [h]
    · simp only [if_neg h, ih, List.mem_cons]
      constructor
      · exact fun hm => Or.inr hm
      · rintro (rfl | hm)
        · exact absurd rfl h
        · exact hm

theorem condline_ne_empty (k v : String) : ("" : String) ≠ k ++ ": " ++ v := by
  intro h
  have hlen := congrArg String.length h
  rw [String.length_append, String.length_append] at hlen
  have h2 : (": " : String).length = 2 := rfl
  have h0 : ("" : String).length = 0 := rfl
  omega

theorem condStep_blank (conds : List (String × String)) :
    ∀ met : List String, condStep "" conds met = met := by
  induction conds with
  | nil => intro met; rfl
  | cons kv rest ih =>
    intro met
    simp only [condStep, if_neg (condline_ne_empty kv.1 kv.2)]
    exact ih met

theorem memS_condStep (s : String) :
    ∀ (conds : List (String × String)) (met : List String) (k : String),
      memS k (condStep s conds met) = true ↔
        memS k met = true ∨ ∃ kv ∈ conds, kv.1 = k ∧ s = kv.1 ++ ": " ++ kv.2 := by
  intro conds
  induction conds with
  | nil => simp [condStep]
  | cons kv rest ih =>
    intro met k
    simp only [condStep]
    rw [ih]
    by_cases h : s = kv.1 ++ ": " ++ kv.2
    · rw [if_pos h]
      simp only [memS, List.mem_cons]
      by_cases hk : kv.1 = k
      · simp only [if_pos hk]
        constructor
        · intro _; exact Or.inr ⟨kv, Or.inl rfl, hk, h⟩
        · intro _; exact Or.inl trivial
      · simp only [if_neg hk]
        constructor
        · rintro (hm | ⟨kv', hkv', hkk, hs⟩)
          · exact Or.inl hm
          · exact Or.inr ⟨kv', Or.inr hkv', hkk, hs⟩
        · rintro (hm | ⟨kv', hkv', hkk, hs⟩)
          · exact Or.inl hm
          · rcases hkv' with rfl | hkv'
            · exact absurd hkk hk
            · exact Or.inr ⟨kv', hkv', hkk, hs⟩
    · rw [if_neg h]
      constructor
      · rintro (hm | ⟨kv', hkv', hkk, hs⟩)
        · exact Or.inl hm
        · exact Or.inr ⟨kv', List.mem_cons_of_mem kv hkv', hkk, hs⟩
      · rintro (hm | ⟨kv', hkv', hkk, hs⟩)
        · exact Or.inl hm
        · rcases List.mem_cons.mp hkv' with rfl | hkv''
          · exact absurd hs h
          · exact Or.inr ⟨kv', hkv'', hkk, hs⟩

theorem allMet_iff (conds : List (String × String)) (met : List String) :
    allMet conds met = true ↔ ∀ kv ∈ conds, memS kv.1 met = true := by
  simp [allMet, List.all_eq_true]

/-! ## Invariants of the scanning loop -/

/-- Soundness of the flag set at position `i`: every met key was matched by a
line since the last blank line. -/
def metSound (lines : List String) (conds : List (String × String)) (i : Nat)
    (met : List String) : Prop :=
  ∀ kv ∈ conds, memS kv.1 met = true → matchedInBlock lines i kv.1 kv.2

/-- Completeness of the flag set at position `i`: every condition matched
since the last blank line is in the met set. -/
def metComplete (lines : List String) (conds : List (String × String)) (i : Nat)
    (met : List String) : Prop :=
  ∀ kv ∈ conds, matchedInBlock lines i kv.1 kv.2 → memS kv.1 met = true

theorem matchedInBlock_mono (lines : List String) (i : Nat) (k v : String)
    (hnb : ¬ isBlankAt lines i) :
    matchedInBlock lines i k v → matchedInBlock lines (i + 1) k v := by
  rintro ⟨j, hj, hm, hb⟩
  rw [List.mem_range] at hj
  refine ⟨j, List.mem_range.mpr (by omega), hm, ?_⟩
  intro b hbr hblank
  rw [List.mem_range] at hbr
  by_cases hbi : b = i
  · exact absurd (hbi ▸ hblank) hnb
  · exact hb b (List.mem_range.mpr (by omega)) hblank

theorem matchedInBlock_restrict (lines : List String) (i : Nat) (k v : String)
    {j : Nat} (hj : j ∈ List.range i)
    (hm : matchesAt lines j k v)
    (hb : ∀ b ∈ List.range (i + 1), isBlankAt lines b → b < j) :
    matchedInBlock lines i k v := by
  refine ⟨j, hj, hm, ?_⟩
  intro b hbr hblank
  rw [List.mem_range] at hbr
  exact hb b (List.mem_range.mpr (by omega)) hblank

theorem matchedInBlock_new (lines : List String) (i : Nat) (k v : String)
    (hm : matchesAt lines i k v) : matchedInBlock lines (i + 1) k v := by
  refine ⟨i, List.mem_range.mpr (by omega), hm, ?_⟩
  intro b hbr hblank
  rw [List.mem_range] at hbr
  by_cases hbi : b = i
  · subst hbi
    rw [isBlankAt, matchesAt] at *
    rw [hblank] at hm
    exact absurd hm (condline_ne_empty k v)
  · omega

theorem scan_found_spec (lines : List String) (conds : List (String × String)) (sv : String)
    (hpw : keysDistinct conds = true) :
    ∀ (rest : List String) (i : Nat) (met : List String) (sl s : Option Nat) (e : Nat),
      lines.drop i = rest →
      metSound lines conds i met →
      scanSession conds sv rest i met sl = .found s e →
      i ≤ e ∧ e < lines.length ∧ isBlankAt lines e ∧ blockSatisfies lines conds e := by
  intro rest
  induction rest with
  | nil =>
    intro i met sl s e _ _ h
    exact absurd h (by simp [scanSession])
  | cons l rest ih =>
    intro i met sl s e hdrop hsound hscan
    have hline : lines.getD i "" = l := drop_cons_getD "" lines i l rest hdrop
    have hdrop' : lines.drop (i + 1) = rest := drop_cons_drop lines i l rest hdrop
    have hilen : i < lines.length := drop_cons_lt lines i l rest hdrop
    simp only [scanSession] at hscan
    by_cases hblank : pyStrip l = ""
    · rw [if_pos hblank, hblank, condStep_blank] at hscan
      by_cases hall : allMet conds met
      · rw [if_pos hall] at hscan
        cases hscan
        refine ⟨Nat.le_refl i, hilen, ?_, ?_⟩
        · rw [isBlankAt, hline]; exact hblank
        · intro kv hkv
          exact hsound kv hkv ((allMet_iff conds met).mp hall kv hkv)
      · rw [if_neg hall] at hscan
        have hres := ih (i + 1) [] none s e hdrop'
          (fun kv _ hmem => by rw [memS] at hmem; cases hmem) hscan
        exact ⟨by omega, hres.2.1, hres.2.2.1, hres.2.2.2⟩
    · rw [if_neg hblank] at hscan
      have hnb : ¬ isBlankAt lines i := by rw [isBlankAt, hline]; exact hblank
      have hsound' : metSound lines conds (i + 1) (condStep (pyStrip l) conds met) := by
        intro kv hkv hmem
        rcases (memS_condStep (pyStrip l) conds met kv.1).mp hmem with hold | ⟨kv', hkv', hkey, hs⟩
        · exact matchedInBlock_mono lines i kv.1 kv.2 hnb (hsound kv hkv hold)
        · have hkveq : kv' = kv := keysDistinct_unique hpw kv' hkv' kv hkv hkey
          exact matchedInBlock_new lines i kv.1 kv.2
            (by rw [matchesAt, hline, hs, hkveq])
      have hres := ih (i + 1) (condStep (pyStrip l) conds met)
        (if pyStartsWith (pyStrip l) (sv ++ ":") then some i else sl) s e hdrop' hsound' hscan
      exact ⟨by omega, hres.2.1, hres.2.2.1, hres.2.2.2⟩

theorem scan_eof_sound (lines : List String) (conds : List (String × String)) (sv : String)
    (hpw : keysDistinct conds = true) :
    ∀ (rest : List String) (i : Nat) (met met_f : List String) (sl sl_f : Option Nat),
      lines.drop i = rest → i ≤ lines.length →
      metSound lines conds i met →
      scanSession conds sv rest i met sl = .eof met_f sl_f →
      metSound lines conds lines.length met_f := by
  intro rest
  induction rest with
  | nil =>
    intro i met met_f sl sl_f hdrop hle hsound hscan
    have hlen : lines.length ≤ i := by
      by_contra hlt
      push_neg at hlt
      have := List.drop_eq_nil_iff.mp hdrop
      omega
    have hieq : i = lines.length := by omega
    simp only [scanSession] at hscan
    cases hscan
    exact hieq ▸ hsound
  | cons l rest ih =>
    intro i met met_f sl sl_f hdrop hle hsound hscan
    have hline : lines.getD i "" = l := drop_cons_getD "" lines i l rest hdrop
    have hdrop' : lines.drop (i + 1) = rest := drop_cons_drop lines i l rest hdrop
    have hilen : i < lines.length := drop_cons_lt lines i l rest hdrop
    simp only [scanSession] at hscan
    by_cases hblank : pyStrip l = ""
    · rw [if_pos hblank, hblank, condStep_blank] at hscan
      by_cases hall : allMet conds met
      · rw [if_pos hall] at hscan; cases hscan
      · rw [if_neg hall] at hscan
        exact ih (i + 1) [] met_f none sl_f hdrop' (by omega)
          (fun kv _ hmem => by rw [memS] at hmem; cases hmem) hscan
    · rw [if_neg hblank] at hscan
      have hnb : ¬ isBlankAt lines i := by rw [isBlankAt, hline]; exact hblank
      have hsound' : metSound lines conds (i + 1) (condStep (pyStrip l) conds met) := by
        intro kv hkv hmem
        rcases (memS_condStep (pyStrip l) conds met kv.1).mp hmem with hold | ⟨kv', hkv', hkey, hs⟩
        · exact matchedInBlock_mono lines i kv.1 kv.2 hnb (hsound kv hkv hold)
        · have hkveq : kv' = kv := keysDistinct_unique hpw kv' hkv' kv hkv hkey
          exact matchedInBlock_new lines i kv.1 kv.2
            (by rw [matchesAt, hline, hs, hkveq])
      exact ih (i + 1) (condStep (pyStrip l) conds met) met_f
        (if pyStartsWith (pyStrip l) (sv ++ ":") then some i else sl) sl_f hdrop' (by omega)
        hsound' hscan

theorem scan_eof_complete (lines : List String) (conds : List (String × String)) (sv : String) :
    ∀ (rest : List String) (i : Nat) (met met_f : List String) (sl sl_f : Option Nat),
      lines.drop i = rest → i ≤ lines.length →
      metComplete lines conds i met →
      scanSession conds sv rest i met sl = .eof met_f sl_f →
      metComplete lines conds lines.length met_f ∧
        ∀ e, i ≤ e → e < lines.length → isBlankAt lines e → ¬ blockSatisfies lines conds e := by
  intro rest
  induction rest with
  | nil =>
    intro i met met_f sl sl_f hdrop hle hcomp hscan
    have hlen : lines.length ≤ i := by
      by_contra hlt
      push_neg at hlt
      have := List.drop_eq_nil_iff.mp hdrop
      omega
    have hieq : i = lines.length := by omega
    simp only [scanSession] at hscan
    cases hscan
    exact ⟨hieq ▸ hcomp, fun e he1 he2 _ => by omega⟩
  | cons l rest ih =>
    intro i met met_f sl sl_f hdrop hle hcomp hscan
    have hline : lines.getD i "" = l := drop_cons_getD "" lines i l rest hdrop
    have hdrop' : lines.drop (i + 1) = rest := drop_cons_drop lines i l rest hdrop
    have hilen : i < lines.length := drop_cons_lt lines i l rest hdrop
    simp only [scanSession] at hscan
    by_cases hblank : pyStrip l = ""
    · rw [if_pos hblank, hblank, condStep_blank] at hscan
      have hbi : isBlankAt lines i := by rw [isBlankAt, hline]; exact hblank
      by_cases hall : allMet conds met
      · rw [if_pos hall] at hscan; cases hscan
      · rw [if_neg hall] at hscan
        have hcomp' : metComplete lines conds (i + 1) [] := by
          intro kv _ hmib
          rcases hmib with ⟨j, hj, _, hb⟩
          rw [List.mem_range] at hj
          have := hb i (List.mem_range.mpr (by omega)) hbi
          omega
        have hres := ih (i + 1) [] met_f none sl_f hdrop' (by omega) hcomp' hscan
        refine ⟨hres.1, ?_⟩
        intro e he1 he2 heb hbs
        by_cases hei : e = i
        · subst hei
          apply hall
          rw [allMet_iff]
          intro kv hkv
          exact hcomp kv hkv (hbs kv hkv)
        · exact hres.2 e (by omega) he2 heb hbs
    · rw [if_neg hblank] at hscan
      have hnb : ¬ isBlankAt lines i := by rw [isBlankAt, hline]; exact hblank
      have hcomp' : metComplete lines conds (i + 1) (condStep (pyStrip l) conds met) := by
        intro kv hkv hmib
        rcases hmib with ⟨j, hj, hm, hb⟩
        rw [List.mem_range] at hj
        rw [memS_condStep]
        by_cases hji : j = i
        · subst hji
          rw [matchesAt, hline] at hm
          exact Or.inr ⟨kv, hkv, rfl, hm⟩
        · have hmib' : matchedInBlock lines i kv.1 kv.2 :=
            matchedInBlock_restrict lines i kv.1 kv.2 (List.mem_range.mpr (by omega)) hm hb
          exact Or.inl (hcomp kv hkv hmib')
      have hres := ih (i + 1) (condStep (pyStrip l) conds met) met_f
        (if pyStartsWith (pyStrip l) (sv ++ ":") then some i else sl) sl_f hdrop' (by omega)
        hcomp' hscan
      refine ⟨hres.1, ?_⟩
      intro e he1 he2 heb hbs
      by_cases hei : e = i
      · subst hei; exact hnb heb
      · exact hres.2 e (by omega) he2 heb hbs

end MedPC

namespace MedPC

/-- Index of the last line whose stripped form starts with
`"{start_variable}:"`, scanning from position `i` with accumulator `acc` —
the value `start_line` has after a reset-free scan. -/
def lastStartAux (sv : String) : List String → Nat → Option Nat → Option Nat
  | [], _, acc => acc
  | l :: rest, i, acc =>
    lastStartAux sv rest (i + 1) (if pyStartsWith (pyStrip l) (sv ++ ":") then some i else acc)

/-- Index of the last start-marker line of the whole file. -/
def lastStartIdx (lines : List String) (sv : String) : Option Nat :=
  lastStartAux sv lines 0 none

theorem scan_noblank_eof (lines : List String) (conds : List (String × String)) (sv : String) :
    ∀ (rest : List String) (i : Nat) (met : List String) (sl : Option Nat),
      lines.drop i = rest →
      (∀ b ∈ List.range lines.length, ¬ isBlankAt lines b) →
      ∃ met_f, scanSession conds sv rest i met sl = .eof met_f (lastStartAux sv rest i sl) := by
  intro rest
  induction rest with
  | nil => intro i met sl _ _; exact ⟨met, rfl⟩
  | cons l rest ih =>
    intro i met sl hdrop hnb
    have hline : lines.getD i "" = l := drop_cons_getD "" lines i l rest hdrop
    have hdrop' : lines.drop (i + 1) = rest := drop_cons_drop lines i l rest hdrop
    have hilen : i < lines.length := drop_cons_lt lines i l rest hdrop
    have hblank : ¬ pyStrip l = "" := by
      have := hnb i (List.mem_range.mpr hilen)
      rw [isBlankAt, hline] at this
      exact this
    obtain ⟨met_f, hres⟩ := ih (i + 1) (condStep (pyStrip l) conds met)
      (if pyStartsWith (pyStrip l) (sv ++ ":") then some i else sl) hdrop' hnb
    refine ⟨met_f, ?_⟩
    simp only [scanSession, if_neg hblank]
    exact hres

/-- Vacuous base invariants at the start of the scan. -/
theorem metSound_zero (lines : List String) (conds : List (String × String)) :
    metSound lines conds 0 [] := by
  intro kv _ hmem
  rw [memS] at hmem
  cases hmem

theorem metComplete_zero (lines : List String) (conds : List (String × String)) :
    metComplete lines conds 0 [] := by
  intro kv _ hmib
  rcases hmib with ⟨j, hj, _, _⟩
  rw [List.mem_range] at hj
  omega


/-- C2: condition lines from one session block never leak into another
block's match.  Whenever `get_session_lines` returns successfully, the
returned lines are the slice `lines[s:e]` for some terminator `e` (the
terminating blank line, or end of file), and every supplied condition
`"{key}: {value}"` is matched by some line strictly after the last blank line
preceding `e` and strictly before `e` (`blockSatisfies`).  In particular,
locating with the conditions of one session can never return a line range
whose block does not itself contain a matching line for every condition, so
two adjacent sessions sharing field labels cannot satisfy each other's
lookups. -/
theorem get_session_lines_no_leakage
    (lines : List String) (conds : List (String × String)) (sv : String) (out : List String)
    (hpw : keysDistinct conds = true)
    (hok : get_session_lines lines conds sv = .ok out) :
    ∃ s e, e ≤ lines.length ∧ out = (lines.drop s).take (e - s) ∧
      isTerminator lines e ∧ blockSatisfies lines conds e := by
  unfold get_session_lines at hok
  cases hscan : scanSession conds sv lines 0 [] none with
  | found sl e =>
    rw [hscan] at hok
    cases sl with
    | none => exact Except.noConfusion hok
    | some s =>
      have hout : out = (lines.drop s).take (e - s) := (Except.ok.inj hok).symm
      have hspec := scan_found_spec lines conds sv hpw lines 0 [] none (some s) e
        (by simp) (metSound_zero lines conds) hscan
      exact ⟨s, e, by omega, hout, Or.inr ⟨hspec.2.1, hspec.2.2.1⟩, hspec.2.2.2⟩
  | eof met sl =>
    rw [hscan] at hok
    dsimp only at hok
    by_cases hall : allMet conds met
    · rw [if_pos hall] at hok
      cases sl with
      | none => exact Except.noConfusion hok
      | some s =>
        have hout : out = lines.drop s := (Except.ok.inj hok).symm
        have hsound := scan_eof_sound lines conds sv hpw lines 0 [] met none (some s)
          (by simp) (by omega) (metSound_zero lines conds) hscan
        refine ⟨s, lines.length, Nat.le_refl _, ?_, Or.inl rfl, ?_⟩
        · rw [hout, take_length_drop]
        · intro kv hkv
          exact hsound kv hkv ((allMet_iff conds met).mp hall kv hkv)
    · rw [if_neg hall] at hok
      exact Except.noConfusion hok

/-- Witness for C2 at a concrete two-block file: locating the second block by
its date returns exactly the second block's slice, whose block matches the
condition strictly after the blank separator. -/
theorem get_session_lines_no_leakage_witness :
    keysDistinct [("Start Date", "04/18/19")] = true ∧
    get_session_lines
      ["Start Date: 04/17/19\n", "\n", "Start Date: 04/18/19\n", "B: 2\n", "\n"]
      [("Start Date", "04/18/19")] "Start Date" = .ok ["Start Date: 04/18/19\n", "B: 2\n"] ∧
    (∃ s e, e ≤ (["Start Date: 04/17/19\n", "\n", "Start Date: 04/18/19\n", "B: 2\n", "\n"] : List String).length ∧
      (["Start Date: 04/18/19\n", "B: 2\n"] : List String) =
        ((["Start Date: 04/17/19\n", "\n", "Start Date: 04/18/19\n", "B: 2\n", "\n"] : List String).drop s).take (e - s) ∧
      isTerminator ["Start Date: 04/17/19\n", "\n", "Start Date: 04/18/19\n", "B: 2\n", "\n"] e ∧
      blockSatisfies ["Start Date: 04/17/19\n", "\n", "Start Date: 04/18/19\n", "B: 2\n", "\n"]
        [("Start Date", "04/18/19")] e) :=
  ⟨by decide, by decide,
    get_session_lines_no_leakage
      ["Start Date: 04/17/19\n", "\n", "Start Date: 04/18/19\n", "B: 2\n", "\n"]
      [("Start Date", "04/18/19")] "Start Date" ["Start Date: 04/18/19\n", "B: 2\n"]
      (by decide) (by decide)⟩

/-- C3: `get_session_lines` reports the session-not-found error, carrying the
supplied conditions in its message, exactly when no session block of the file
satisfies all the supplied conditions — where a block is delimited by a blank
line or by end of file, and end of file counts as an implicit terminator only
when all conditions are satisfied there. -/
theorem get_session_lines_not_found_iff
    (lines : List String) (conds : List (String × String)) (sv : String)
    (hpw : keysDistinct conds = true) :
    get_session_lines lines conds sv = .error (.sessionNotFound conds) ↔
      ¬ ∃ e, isTerminator lines e ∧ blockSatisfies lines conds e := by
  unfold get_session_lines
  cases hscan : scanSession conds sv lines 0 [] none with
  | found sl e =>
    have hspec := scan_found_spec lines conds sv hpw lines 0 [] none sl e
      (by simp) (metSound_zero lines conds) hscan
    apply iff_of_false
    · intro h
      dsimp only at h
      cases sl with
      | none => exact MedError.noConfusion (Except.error.inj h)
      | some s => exact Except.noConfusion h
    · intro hno
      exact hno ⟨e, Or.inr ⟨hspec.2.1, hspec.2.2.1⟩, hspec.2.2.2⟩
  | eof met sl =>
    by_cases hall : allMet conds met
    · have hsound := scan_eof_sound lines conds sv hpw lines 0 [] met none sl
        (by simp) (by omega) (metSound_zero lines conds) hscan
      apply iff_of_false
      · intro h
        dsimp only at h
        rw [if_pos hall] at h
        cases sl with
        | none => exact MedError.noConfusion (Except.error.inj h)
        | some s => exact Except.noConfusion h
      · intro hno
        refine hno ⟨lines.length, Or.inl rfl, ?_⟩
        intro kv hkv
        exact hsound kv hkv ((allMet_iff conds met).mp hall kv hkv)
    · have hcomp := scan_eof_complete lines conds sv lines 0 [] met none sl
        (by simp) (by omega) (metComplete_zero lines conds) hscan
      apply iff_of_true
      · dsimp only
        rw [if_neg hall]
      · rintro ⟨e, hterm, hbs⟩
        rcases hterm with heq | ⟨hlt, hblank⟩
        · subst heq
          apply hall
          rw [allMet_iff]
          intro kv hkv
          exact hcomp.1 kv hkv (hbs kv hkv)
        · exact hcomp.2 e (by omega) hlt hblank hbs

/-- Witness for C3: conditions naming a value absent from the file raise the
session-not-found error carrying those conditions. -/
theorem get_session_lines_not_found_iff_witness :
    keysDistinct [("A", "1")] = true ∧
    get_session_lines ["A: 2\n"] [("A", "1")] "A" = .error (.sessionNotFound [("A", "1")]) :=
  ⟨by decide,
    (get_session_lines_not_found_iff ["A: 2\n"] [("A", "1")] "A" (by decide)).mpr
      (by
        rintro ⟨e, hterm, hbs⟩
        rcases hbs ("A", "1") (List.mem_cons_self _ _) with ⟨j, hj, hm, _⟩
        rw [List.mem_range] at hj
        have hlen : (["A: 2\n"] : List String).length = 1 := rfl
        have he : e ≤ 1 := by
          rcases hterm with heq | ⟨hlt, _⟩
          · omega
          · omega
        have hj0 : j = 0 := by omega
        subst hj0
        exact absurd hm (by decide))⟩

/-- C4 (counterexample): a start marker with no terminating blank line after
it does **not** make `get_session_lines` fail.  On the one-line file
`["Start Date: x"]` — which contains a start marker and no blank line at all
— the function returns the slice from the start marker to end of file instead
of raising any malformed-log error. -/
theorem get_session_lines_no_terminator_cex :
    (∀ b ∈ List.range (["Start Date: x"] : List String).length,
        ¬ isBlankAt ["Start Date: x"] b) ∧
    pyStartsWith (pyStrip "Start Date: x") ("Start Date" ++ ":") = true ∧
    get_session_lines ["Start Date: x"] [("Start Date", "x")] "Start Date" =
      .ok ["Start Date: x"] :=
  ⟨by decide, by decide, by decide⟩

/-- C4 (amended): when a start marker has no terminating blank line after it
(stated here for files containing no blank line at all), `get_session_lines`
never raises a malformed-log error; instead end of file acts as an implicit
terminator: if all conditions are satisfied at EOF it returns the slice from
the most recent start marker to EOF (or the start-variable-not-found error
when no start marker exists), and otherwise it raises the session-not-found
error. -/
theorem get_session_lines_no_terminator_behaviour
    (lines : List String) (conds : List (String × String)) (sv : String)
    (hpw : keysDistinct conds = true)
    (hnb : ∀ b ∈ List.range lines.length, ¬ isBlankAt lines b) :
    (blockSatisfies lines conds lines.length →
      get_session_lines lines conds sv =
        match lastStartIdx lines sv with
        | some s => .ok (lines.drop s)
        | none => .error (.startNotFound sv conds)) ∧
    (¬ blockSatisfies lines conds lines.length →
      get_session_lines lines conds sv = .error (.sessionNotFound conds)) := by
  obtain ⟨met_f, hscan⟩ := scan_noblank_eof lines conds sv lines 0 [] none (by simp) hnb
  have hsound := scan_eof_sound lines conds sv hpw lines 0 [] met_f none
    (lastStartAux sv lines 0 none) (by simp) (by omega) (metSound_zero lines conds) hscan
  have hcomp := (scan_eof_complete lines conds sv lines 0 [] met_f none
    (lastStartAux sv lines 0 none) (by simp) (by omega) (metComplete_zero lines conds) hscan).1
  constructor
  · intro hbs
    have hall : allMet conds met_f = true := by
      rw [allMet_iff]
      intro kv hkv
      exact hcomp kv hkv (hbs kv hkv)
    unfold get_session_lines
    rw [hscan]
    dsimp only
    rw [if_pos hall]
    rfl
  · intro hnbs
    have hall : ¬ allMet conds met_f = true := by
      intro hall
      apply hnbs
      intro kv hkv
      exact hsound kv hkv ((allMet_iff conds met_f).mp hall kv hkv)
    unfold get_session_lines
    rw [hscan]
    dsimp only
    rw [if_neg hall]

/-- Witness for the amended C4 on a concrete blank-free two-line file: the
conditions are satisfied at EOF and the slice from the start marker to EOF is
returned. -/
theorem get_session_lines_no_terminator_behaviour_witness :
    keysDistinct [("Start Date", "x")] = true ∧
    (∀ b ∈ List.range (["Start Date: x\n", "B: 2\n"] : List String).length,
        ¬ isBlankAt ["Start Date: x\n", "B: 2\n"] b) ∧
    blockSatisfies ["Start Date: x\n", "B: 2\n"] [("Start Date", "x")]
      (["Start Date: x\n", "B: 2\n"] : List String).length ∧
    get_session_lines ["Start Date: x\n", "B: 2\n"] [("Start Date", "x")] "Start Date" =
      .ok ["Start Date: x\n", "B: 2\n"] :=
  ⟨by decide, by decide, by decide,
    ((get_session_lines_no_terminator_behaviour ["Start Date: x\n", "B: 2\n"]
        [("Start Date", "x")] "Start Date" (by decide) (by decide)).1 (by decide)).trans
      (by decide)⟩

end MedPC

namespace MedPC

/-! ## `read_medpc_file` (medpc.py lines 82–146) -/

/-- Values held in `session_dict`: raw strings and token lists during
extraction; dates, times and float arrays after type coercion. -/
inductive MedValue : Type
  | mstr (s : String)
  | mlist (xs : List String)
  | mdate (m d y : Nat)
  | mtime (h m s : Nat)
  | marr (xs : List ℚ)
deriving DecidableEq, Repr

/-- The declared Python type of an output field (`dict_name_to_type` values):
`datetime.date`, `datetime.time`, `np.ndarray`, or any other type (e.g.
`str`), for which the conversion loop has no branch. -/
inductive PyType : Type
  | pdate
  | ptime
  | ndarray
  | pstr
deriving DecidableEq, Repr

/-- `datum.split("\t")[0]`, applied (as in the code) only when the token
contains a tab: truncate the token at its first tab character. -/
def tabTrunc (d : String) : String :=
  if d.toList.contains '\t' then (d.toList.takeWhile (fun c => ¬ c = '\t')).asString
  else d

/-- The `for datum in data.split(" ")` loop of `read_medpc_file` (lines
111–120): split the (already stripped) value on single spaces, strip each
token, skip tokens that are empty after stripping, and truncate each kept
token at its first tab. -/
def tokensOfData (data : String) : List String :=
  (splitChar ' ' data.toList).filterMap fun t =>
    let d := (pyStripL t).asString
    if d = "" then none else some (tabTrunc d)

/-- `session_dict[name].append(datum)`: append to the list held at `name`;
appending to a string raises `AttributeError`, a missing key raises
`KeyError` (neither is reachable in well-formed runs). -/
def appendDatum (d : List (String × MedValue)) (k : String) (x : String) :
    Except MedError (List (String × MedValue)) :=
  match alookup d k with
  | some (.mlist xs) => .ok (updateAssoc d k (.mlist (xs ++ [x])))
  | some _ => .error .attrError
  | none => .error .keyError

/-- Append a whole token list datum by datum. -/
def appendData (d : List (String × MedValue)) (k : String) :
    List String → Except MedError (List (String × MedValue))
  | [] => .ok d
  | x :: xs =>
    match appendDatum d k x with
    | .ok d' => appendData d' k xs
    | .error e => .error e

/-- The multiline branch of `read_medpc_file`'s parsing loop (lines
104–120): on an index-`"     0"` line, bind `multiline_variable_name` to the
label of the **previous** raw line (`session_lines[i - 1]`, which for `i = 0`
is Python's negative indexing: the *last* line) and initialise its output
list when the label is recognised; then, reading `multiline_variable_name`
raises an unbound-local name error if it was never bound; unrecognised
array labels are skipped; recognised ones get the line's tokens appended. -/
def multilineBranch (nameMap : List (String × String)) (sessionLines : List String)
    (i : Nat) (mvn : Option String) (d : List (String × MedValue)) (medpc_name data : String) :
    Except MedError (Option String × List (String × MedValue)) :=
  let st : Option String × List (String × MedValue) :=
    if medpc_name = "     0" then
      let prevRaw := if i = 0 then sessionLines.getLastD "" else sessionLines.getD (i - 1) ""
      let mvn' := beforeColon prevRaw
      match alookup nameMap mvn' with
      | some outName => (some mvn', updateAssoc d outName (.mlist []))
      | none => (some mvn', d)
    else (mvn, d)
  match st with
  | (none, _) => .error .nameError
  | (some name, d1) =>
    match alookup nameMap name with
    | none => .ok (some name, d1)
    | some outName =>
      match appendData d1 outName (tokensOfData data) with
      | .ok d2 => .ok (some name, d2)
      | .error e => .error e

/-- The `for i, line in enumerate(session_lines)` parsing loop of
`read_medpc_file` (lines 96–125): rstrip the line; skip comment lines
(leading backslash); assert the line has a colon; split at the first colon
into label and stripped value; colon at character column 6 marks a multiline
continuation line, otherwise a recognised label stores the value as a
scalar. -/
def extract_loop (nameMap : List (String × String)) (sessionLines : List String) :
    List String → Nat → Option String → List (String × MedValue) →
    Except MedError (List (String × MedValue))
  | [], _, _, d => .ok d
  | raw :: rest, i, mvn, d =>
    let line := pyRstrip raw
    if pyStartsWith line "\\" then extract_loop nameMap sessionLines rest (i + 1) mvn d
    else if (firstColonIdx line).isNone then .error (.assertNoColon line)
    else
      let medpc_name := beforeColon line
      let data := pyStrip (afterColon line)
      if firstColonIdx line = some 6 then
        match multilineBranch nameMap sessionLines i mvn d medpc_name data with
        | .ok (mvn', d') => extract_loop nameMap sessionLines rest (i + 1) mvn' d'
        | .error e => .error e
      else
        match alookup nameMap medpc_name with
        | some dict_name =>
          extract_loop nameMap sessionLines rest (i + 1) mvn (updateAssoc d dict_name (.mstr data))
        | none => extract_loop nameMap sessionLines rest (i + 1) mvn d

/-- Parse a session's lines into the raw `session_dict`. -/
def parse_session_lines (nameMap : List (String × String)) (sessionLines : List String) :
    Except MedError (List (String × MedValue)) :=
  extract_loop nameMap sessionLines sessionLines 0 none []

/-! ### Numeric and date/time token parsing for the coercion pass -/

/-- Digit value of an ASCII digit character. -/
def digitVal (c : Char) : Option Nat :=
  if '0' ≤ c ∧ c ≤ '9' then some (c.toNat - '0'.toNat) else none

/-- Accumulating decimal reading of a digit string; fails on non-digits. -/
def natOfDigits : List Char → Nat → Option Nat
  | [], acc => some acc
  | c :: cs, acc =>
    match digitVal c with
    | some v => natOfDigits cs (acc * 10 + v)
    | none => none

/-- Decimal reading of a non-empty digit string. -/
def parseNatDigits (cs : List Char) : Option Nat :=
  if cs = [] then none else natOfDigits cs 0

/-- Reading a MedPC numeral as `float(token)` does, exactly over `ℚ`:
optional sign, integer digits, optional `.` and fraction digits. -/
def parseFloat (s : String) : Option ℚ :=
  let cs0 := s.toList
  let sc : ℚ × List Char :=
    match cs0 with
    | '-' :: t => (-1, t)
    | '+' :: t => (1, t)
    | _ => (1, cs0)
  let sgn := sc.1
  let cs := sc.2
  let ip := cs.takeWhile (fun c => (digitVal c).isSome)
  let rest := cs.dropWhile (fun c => (digitVal c).isSome)
  match rest with
  | [] => (parseNatDigits ip).map fun n => sgn * n
  | '.' :: frac =>
    if frac.all (fun c => (digitVal c).isSome) ∧ (ip ≠ [] ∨ frac ≠ []) then
      match natOfDigits ip 0, natOfDigits frac 0 with
      | some ipn, some fpn => some (sgn * ((ipn : ℚ) + (fpn : ℚ) / (10 ^ frac.length)))
      | _, _ => none
    else none
  | _ => none

/-- Parse every token of an array field (`np.array(tokens, dtype=float)`). -/
def mapFloats : List String → Option (List ℚ)
  | [] => some []
  | x :: xs =>
    match parseFloat x, mapFloats xs with
    | some q, some qs => some (q :: qs)
    | _, _ => none

/-- `np.trim_zeros(arr, trim="b")`: remove zeros from the tail only,
stopping at the first non-zero scanning right to left. -/
def trimZerosB (l : List ℚ) : List ℚ :=
  (l.reverse.dropWhile (fun q => q == 0)).reverse

/-- `datetime.strptime(s, "%m/%d/%y").date()`: three `/`-separated digit
groups of at most two digits, month 1–12, day 1–31, two-digit year. -/
def parseDate (s : String) : Option (Nat × Nat × Nat) :=
  match splitChar '/' s.toList with
  | [ms, ds, ys] =>
    if ms.length ≤ 2 ∧ ds.length ≤ 2 ∧ ys.length ≤ 2 then
      match parseNatDigits ms, parseNatDigits ds, parseNatDigits ys with
      | some m, some d, some y =>
        if 1 ≤ m ∧ m ≤ 12 ∧ 1 ≤ d ∧ d ≤ 31 ∧ y ≤ 99 then some (m, d, y) else none
      | _, _, _ => none
    else none
  | _ => none

/-- `datetime.strptime(s, "%H:%M:%S").time()`. -/
def parseTime (s : String) : Option (Nat × Nat × Nat) :=
  match splitChar ':' s.toList with
  | [hs, ms, ss] =>
    if hs.length ≤ 2 ∧ ms.length ≤ 2 ∧ ss.length ≤ 2 then
      match parseNatDigits hs, parseNatDigits ms, parseNatDigits ss with
      | some h, some m, some s2 =>
        if h ≤ 23 ∧ m ≤ 59 ∧ s2 ≤ 61 then some (h, m, s2) else none
      | _, _, _ => none
    else none
  | _ => none

/-- The per-field body of the type-conversion loop of `read_medpc_file`
(medpc.py 128–145): `date`-typed fields go through `strptime("%m/%d/%y")`,
`time`-typed through `strptime("%H:%M:%S")`; `np.ndarray`-typed fields map
the empty string to an empty float array, reject a non-empty single-line
string with the "Expected {name} to be a multiline variable" `ValueError`
naming the field, and convert a token list through float parsing followed by
trailing-zero trimming; any other declared type (e.g. `str`) leaves the
value untouched, because the loop has no branch for it. -/
def coerceField (dict_name : String) (ty : PyType) (v : MedValue) :
    Except MedError MedValue :=
  match ty with
  | .pdate =>
    match v with
    | .mstr s =>
      match parseDate s with
      | some mdy => .ok (.mdate mdy.1 mdy.2.1 mdy.2.2)
      | none => .error (.strptimeError s)
    | _ => .error .pyTypeError
  | .ptime =>
    match v with
    | .mstr s =>
      match parseTime s with
      | some hms => .ok (.mtime hms.1 hms.2.1 hms.2.2)
      | none => .error (.strptimeError s)
    | _ => .error .pyTypeError
  | .ndarray =>
    match v with
    | .mstr s => if s = "" then .ok (.marr []) else .error (.typeMismatch dict_name)
    | .mlist xs =>
      match mapFloats xs with
      | some qs => .ok (.marr (trimZerosB qs))
      | none => .error (.floatError (String.intercalate " " xs))
    | _ => .error .pyTypeError
  | .pstr => .ok v

/-- The `for dict_name, data_type in dict_name_to_type.items()` conversion
loop: fields absent from the session are skipped; present ones are converted
in place. -/
def coerce_pass : List (String × PyType) → List (String × MedValue) →
    Except MedError (List (String × MedValue))
  | [], d => .ok d
  | (n, ty) :: rest, d =>
    match alookup d n with
    | none => coerce_pass rest d
    | some v =>
      match coerceField n ty v with
      | .ok v' => coerce_pass rest (updateAssoc d n v')
      | .error e => .error e

/-- `read_medpc_file(file_path, medpc_name_to_dict_name, dict_name_to_type,
session_conditions, start_variable)` (medpc.py 82–146), with the file's
`readlines()` result passed as `lines`: locate the session, parse its lines
into the raw dictionary, then run the type-conversion pass. -/
def read_medpc_file (lines : List String) (medpc_name_to_dict_name : List (String × String))
    (dict_name_to_type : List (String × PyType)) (session_conditions : List (String × String))
    (start_variable : String) : Except MedError (List (String × MedValue)) :=
  match get_session_lines lines session_conditions start_variable with
  | .error e => .error e
  | .ok session_lines =>
    match parse_session_lines medpc_name_to_dict_name session_lines with
    | .error e => .error e
    | .ok raw => coerce_pass dict_name_to_type raw

/-! ## `get_medpc_variables` (medpc.py lines 5–28) -/

/-- `{name: [] for name in variable_names}`: insertion-ordered dict with
first-occurrence deduplication. -/
def gmvInit (names : List String) : List (String × List String) :=
  names.foldl (fun d n => if (alookup d n).isSome then d else d ++ [(n, [])]) []

/-- `medpc_variables[variable_name].append(...)`. -/
def gmvAppend (d : List (String × List String)) (n v : String) :
    Except MedError (List (String × List String)) :=
  match alookup d n with
  | some vs => .ok (updateAssoc d n (vs ++ [v]))
  | none => .error .keyError

/-- The inner `for variable_name in variable_names` loop of
`get_medpc_variables`: a line starting with the (bare) variable name
contributes `line.split(":", maxsplit=1)[1].strip()`; if such a line has no
colon, the `[1]` raises `IndexError`. -/
def gmvLine (line : String) : List String → List (String × List String) →
    Except MedError (List (String × List String))
  | [], d => .ok d
  | n :: rest, d =>
    if pyStartsWith line n then
      if (firstColonIdx line).isSome then
        match gmvAppend d n (pyStrip (afterColon line)) with
        | .ok d' => gmvLine line rest d'
        | .error e => .error e
      else .error .indexError
    else gmvLine line rest d

/-- The outer `for line in lines` loop of `get_medpc_variables`. -/
def gmvLoop (names : List String) : List String → List (String × List String) →
    Except MedError (List (String × List String))
  | [], d => .ok d
  | l :: ls, d =>
    match gmvLine l names d with
    | .ok d' => gmvLoop names ls d'
    | .error e => .error e

/-- `get_medpc_variables(file_path, variable_names)` (medpc.py 5–28), with
the file's `readlines()` result passed as `lines`. -/
def get_medpc_variables (lines : List String) (variable_names : List String) :
    Except MedError (List (String × List String)) :=
  gmvLoop variable_names lines (gmvInit variable_names)

end MedPC

namespace MedPC

/-! ## Small list lemmas for the trimming characterization -/

theorem take_append_le {α : Type} :
    ∀ (l t : List α) (k : Nat), k ≤ l.length → (l ++ t).take k = l.take k := by
  intro l
  induction l with
  | nil =>
    intro t k hk
    have hk0 : k = 0 := Nat.le_zero.mp hk
    subst hk0
    rfl
  | cons a as ih =>
    intro t k hk
    cases k with
    | zero => rfl
    | succ n =>
      simp only [List.cons_append, List.take_succ_cons]
      rw [ih t n (by simpa using hk)]

theorem getD_append_lt {α : Type} (d : α) :
    ∀ (l t : List α) (k : Nat), k < l.length → (l ++ t).getD k d = l.getD k d := by
  intro l
  induction l with
  | nil => intro t k hk; simp at hk
  | cons a as ih =>
    intro t k hk
    cases k with
    | zero => rfl
    | succ n =>
      simp only [List.cons_append, List.getD_cons_succ]
      exact ih t n (by simpa using hk)

theorem getD_append_len {α : Type} (d : α) :
    ∀ (l : List α) (a : α), (l ++ [a]).getD l.length d = a := by
  intro l
  induction l with
  | nil => intro a; rfl
  | cons x xs ih =>
    intro a
    simp only [List.cons_append, List.length_cons, List.getD_cons_succ]
    exact ih a

/-- Characterization of `np.trim_zeros(·, trim="b")`: the result is a prefix
`l.take k`, everything at or beyond `k` is zero, and the last kept element
(if any) is non-zero — i.e. trimming removes zeros from the tail only,
stopping at the first non-zero scanning right-to-left. -/
theorem trimZerosB_spec (l : List ℚ) :
    ∃ k, k ≤ l.length ∧ trimZerosB l = l.take k ∧
      (∀ i ∈ List.range l.length, k ≤ i → l.getD i 0 = 0) ∧
      (k = 0 ∨ ¬ l.getD (k - 1) 0 = 0) := by
  induction l using List.reverseRecOn with
  | nil =>
    refine ⟨0, Nat.le_refl 0, rfl, ?_, Or.inl rfl⟩
    intro i hi _
    rw [List.mem_range, List.length_nil] at hi
    exact absurd hi (by omega)
  | append_singleton l a ih =>
    by_cases ha : a = 0
    · obtain ⟨k, hk, htrim, hzero, hlast⟩ := ih
      have htrim' : trimZerosB (l ++ [a]) = trimZerosB l := by
        unfold trimZerosB
        rw [List.reverse_append]
        simp only [List.reverse_cons, List.reverse_nil, List.nil_append, List.singleton_append,
          List.dropWhile_cons]
        rw [if_pos (by simp [ha])]
      have hk' : k ≤ (l ++ [a]).length := by
        rw [List.length_append]
        simp only [List.length_cons, List.length_nil]
        omega
      refine ⟨k, hk', ?_, ?_, ?_⟩
      · rw [htrim', htrim, take_append_le l [a] k hk]
      · intro i hi hki
        rw [List.mem_range] at hi
        simp only [List.length_append, List.length_cons, List.length_nil] at hi
        by_cases hil : i < l.length
        · rw [getD_append_lt 0 l [a] i hil]
          exact hzero i (List.mem_range.mpr hil) hki
        · have : i = l.length := by omega
          subst this
          rw [getD_append_len 0 l a]
          exact ha
      · rcases hlast with h0 | hne
        · exact Or.inl h0
        · refine Or.inr ?_
          have hk1 : k - 1 < l.length := by
            by_contra hc
            push_neg at hc
            rcases Nat.eq_zero_or_pos k with hk0 | hkpos
            · subst hk0
              have hl0 : l.length = 0 := by omega
              rcases List.length_eq_zero.mp hl0 with rfl
              exact hne (by simp)
            · omega
          rw [getD_append_lt 0 l [a] (k - 1) hk1]
          exact hne
    · have hlen1 : l.length + 1 = (l ++ [a]).length := by simp
      have hle1 : l.length + 1 ≤ (l ++ [a]).length := by omega
      refine ⟨l.length + 1, hle1, ?_, ?_, ?_⟩
      · have : trimZerosB (l ++ [a]) = l ++ [a] := by
          unfold trimZerosB
          rw [List.reverse_append]
          simp only [List.reverse_cons, List.reverse_nil, List.nil_append, List.singleton_append,
            List.dropWhile_cons]
          rw [if_neg (by simp [ha])]
          simp
        rw [this, hlen1, List.take_length]
      · intro i hi hki
        rw [List.mem_range] at hi
        simp only [List.length_append, List.length_cons, List.length_nil] at hi
        omega
      · refine Or.inr ?_
        simpa [getD_append_len 0 l a] using ha

/-- C6: in the type-coercion pass, an array-declared field whose raw value is
the empty string becomes the empty numeric array (not a one-element array),
and a parsed token list becomes the numeric array with zeros trimmed from
the tail only — stopping at the first non-zero scanning right-to-left
(`trimZerosB_spec` shape), with `[3.1, 4.2, 0, 0]` trimming to `[3.1, 4.2]`,
`[0, 0, 0]` to `[]`, and `[0, 3.1, 0]` to `[0, 3.1]` (interior and leading
zeros preserved). -/
theorem coerceField_array_normalization :
    (∀ name, coerceField name .ndarray (.mstr "") = .ok (.marr [])) ∧
    (∀ name xs qs, mapFloats xs = some qs →
      coerceField name .ndarray (.mlist xs) = .ok (.marr (trimZerosB qs))) ∧
    (∀ l : List ℚ, ∃ k, k ≤ l.length ∧ trimZerosB l = l.take k ∧
      (∀ i ∈ List.range l.length, k ≤ i → l.getD i 0 = 0) ∧
      (k = 0 ∨ ¬ l.getD (k - 1) 0 = 0)) ∧
    trimZerosB [3.1, 4.2, 0, 0] = [3.1, 4.2] ∧
    trimZerosB [0, 0, 0] = [] ∧
    trimZerosB [0, 3.1, 0] = [0, 3.1] := by
  have h31 : ((3.1 : ℚ) == 0) = false := by rw [beq_eq_false_iff_ne]; norm_num
  have h42 : ((4.2 : ℚ) == 0) = false := by rw [beq_eq_false_iff_ne]; norm_num
  have h0 : ((0 : ℚ) == 0) = true := by rw [beq_iff_eq]
  refine ⟨fun name => rfl, fun name xs qs h => ?_, trimZerosB_spec, ?_, ?_, ?_⟩
  · simp [coerceField, h]
  · simp [trimZerosB, h31, h42, h0]
  · simp [trimZerosB, h0]
  · simp [trimZerosB, h31, h0]

/-- Witness for C6 on the claim's own first example, end to end through the
token parser: `["3.1", "4.2", "0", "0"]` parses and trims to `[3.1, 4.2]`. -/
theorem coerceField_array_normalization_witness :
    mapFloats ["3.1", "4.2", "0", "0"] = some [3.1, 4.2, 0, 0] ∧
    coerceField "port_entry_times" .ndarray (.mlist ["3.1", "4.2", "0", "0"]) =
      .ok (.marr [3.1, 4.2]) := by
  have hmf : mapFloats ["3.1", "4.2", "0", "0"] = some [3.1, 4.2, 0, 0] := by
    rw [show mapFloats ["3.1", "4.2", "0", "0"] = some
        [(1 : ℚ) * (((3 : Nat) : ℚ) + ((1 : Nat) : ℚ) / (10 ^ (1 : Nat))),
         (1 : ℚ) * (((4 : Nat) : ℚ) + ((2 : Nat) : ℚ) / (10 ^ (1 : Nat))),
         (1 : ℚ) * ((0 : Nat) : ℚ), (1 : ℚ) * ((0 : Nat) : ℚ)] from rfl]
    norm_num
  refine ⟨hmf, ?_⟩
  rw [coerceField_array_normalization.2.1 "port_entry_times" _ _ hmf,
    coerceField_array_normalization.2.2.2.1]

end MedPC

namespace MedPC

/-- C5 (counterexample): the shape check is **not** two-directional.  A field
declared with a scalar type (`str`) but populated as a multiline array (a
token list) raises no error at all: on a session whose field `A` is a
multiline variable mapped to output `foo`, declaring `foo : str` makes
`read_medpc_file` return the token list unchanged instead of raising a
type-mismatch error naming `foo`. -/
theorem read_medpc_file_type_mismatch_not_two_directional :
    alookup [("foo", PyType.pstr)] "foo" = some .pstr ∧
    read_medpc_file
      ["Start Date: 04/18/19\n", "A:\n", "     0: 1.0 2.0\n", "\n"]
      [("A", "foo")] [("foo", .pstr)] [("Start Date", "04/18/19")] "Start Date" =
      .ok [("foo", .mlist ["1.0", "2.0"])] :=
  ⟨rfl, by decide⟩

/-- C5 (amended): the type-mismatch error naming the offending field is
raised in **one** direction only — a field declared as an array
(`np.ndarray`) whose observed value is a non-empty single-line string.  In
the other direction, a field declared with a scalar type but populated as a
multiline array is not detected: `str`-declared fields pass the token list
through unchanged, and `date`-declared fields fail with a generic `TypeError`
from `strptime` that does not name the field. -/
theorem coerceField_type_mismatch_one_directional :
    (∀ name s, ¬ s = "" →
      coerceField name .ndarray (.mstr s) = .error (.typeMismatch name)) ∧
    (∀ name xs, coerceField name .pstr (.mlist xs) = .ok (.mlist xs)) ∧
    (∀ name xs, coerceField name .pdate (.mlist xs) = .error .pyTypeError) := by
  refine ⟨fun name s hs => ?_, fun name xs => rfl, fun name xs => rfl⟩
  simp [coerceField, hs]

/-- Witness for the amended C5: a concrete array-declared scalar raises the
field-naming error, and a concrete scalar-declared array does not. -/
theorem coerceField_type_mismatch_one_directional_witness :
    ¬ ("1.0" : String) = "" ∧
    coerceField "port_entry_times" .ndarray (.mstr "1.0") =
      .error (.typeMismatch "port_entry_times") ∧
    coerceField "subject" .pstr (.mlist ["1.0", "2.0"]) = .ok (.mlist ["1.0", "2.0"]) :=
  ⟨by decide,
    coerceField_type_mismatch_one_directional.1 "port_entry_times" "1.0" (by decide),
    coerceField_type_mismatch_one_directional.2.1 "subject" ["1.0", "2.0"]⟩

/-- Token machine as claim C7 literally words it: split the value on (single)
spaces, discard empty tokens, and truncate each kept token at its first tab
character — with no per-token stripping. -/
def tokensClaimC7 (data : String) : List String :=
  ((splitChar ' ' data.toList).map (fun t => t.asString)).filterMap fun t =>
    if t = "" then none else some (tabTrunc t)

/-- C7 (counterexample): the code strips each token before the empty-token
test, which the claim's pipeline does not.  On the value `"1.5 \t 2.5"` the
code keeps `["1.5", "2.5"]`, while the claim's pipeline keeps the middle
token `"\t"` (it is non-empty), truncates it at its tab and appends the
empty string: `["1.5", "", "2.5"]`. -/
theorem tokensOfData_claim_pipeline_cex :
    tokensOfData "1.5 \t 2.5" = ["1.5", "2.5"] ∧
    tokensClaimC7 "1.5 \t 2.5" = ["1.5", "", "2.5"] :=
  ⟨by decide, by decide⟩

theorem filterMap_strip_eq (l : List (List Char)) :
    (l.filterMap fun t =>
      let d := (pyStripL t).asString
      if d = "" then none else some (tabTrunc d)) =
      ((l.map (fun t => (pyStripL t).asString)).filter (fun t => !(t == ""))).map tabTrunc := by
  induction l with
  | nil => rfl
  | cons t ts ih =>
    simp only [List.filterMap_cons, List.map_cons, List.filter_cons]
    by_cases h : (pyStripL t).asString = ""
    · simp [h, ih]
    · simp [h, ih]

/-- C7 (amended): for every continuation line belonging to a recognized
array field, the code splits the (stripped) value on single spaces,
**strips each token of surrounding whitespace**, discards tokens that are
empty after stripping, and truncates each remaining token at its first tab
character before appending it; in particular the continuation token
`"12.5\tGARBAGE"` parses as the single value `12.5`. -/
theorem tokensOfData_strip_semantics :
    (∀ data : String, tokensOfData data =
      (((splitChar ' ' data.toList).map (fun t => (pyStripL t).asString)).filter
          (fun t => !(t == ""))).map tabTrunc) ∧
    tokensOfData "12.5\tGARBAGE" = ["12.5"] :=
  ⟨fun data => filterMap_strip_eq (splitChar ' ' data.toList), by decide⟩

/-- C9: parsing is deterministic — the result of `read_medpc_file` (success
value or raised error) is a pure function of the file's lines, the field
maps, the session conditions and the start variable, so calling it twice
with identical arguments on an unmodified file returns identical output.
The embedding is stateless, mirroring the code: no state survives between
calls (the file is re-read and re-parsed from scratch each time). -/
theorem read_medpc_file_deterministic (lines : List String)
    (medpc_name_to_dict_name : List (String × String))
    (dict_name_to_type : List (String × PyType))
    (session_conditions : List (String × String)) (start_variable : String) :
    read_medpc_file lines medpc_name_to_dict_name dict_name_to_type
        session_conditions start_variable =
      read_medpc_file lines medpc_name_to_dict_name dict_name_to_type
        session_conditions start_variable := rfl

/-- C10: if the first colon-at-column-6 line of the session slice is not an
index-0 line (label `"     0"`), and every earlier line is a comment or a
content line whose first colon is not at column 6, then extraction fails
with the unbound-local name error on `multiline_variable_name` — not with
any of the parser's own errors.  (Equivalently: extraction is total on
array-bearing slices only when a fixed-column continuation line is always
preceded by the index-0 line that binds the current array name.) -/
theorem parse_session_lines_unbound_name
    (nameMap : List (String × String)) (sessionLines : List String) (i : Nat)
    (hi : i < sessionLines.length)
    (hbefore : ∀ j ∈ List.range i,
      pyStartsWith (pyRstrip (sessionLines.getD j "")) "\\" = true ∨
        ((firstColonIdx (pyRstrip (sessionLines.getD j ""))).isSome = true ∧
          ¬ firstColonIdx (pyRstrip (sessionLines.getD j "")) = some 6))
    (hcomment : ¬ pyStartsWith (pyRstrip (sessionLines.getD i "")) "\\" = true)
    (hcol6 : firstColonIdx (pyRstrip (sessionLines.getD i "")) = some 6)
    (hlabel : ¬ beforeColon (pyRstrip (sessionLines.getD i "")) = "     0") :
    parse_session_lines nameMap sessionLines = .error .nameError := by
  suffices h : ∀ (rest : List String) (j : Nat) (d : List (String × MedValue)),
      sessionLines.drop j = rest → j ≤ i →
      extract_loop nameMap sessionLines rest j none d = .error .nameError by
    exact h sessionLines 0 [] (by simp) (by omega)
  intro rest
  induction rest with
  | nil =>
    intro j d hdrop hji
    have := List.drop_eq_nil_iff.mp hdrop
    omega
  | cons raw rest ih =>
    intro j d hdrop hji
    have hline : sessionLines.getD j "" = raw := drop_cons_getD "" sessionLines j raw rest hdrop
    have hdrop' : sessionLines.drop (j + 1) = rest := drop_cons_drop sessionLines j raw rest hdrop
    by_cases hjeq : j = i
    · subst hjeq
      rw [hline] at hcomment hcol6 hlabel
      have hmb : multilineBranch nameMap sessionLines j none d
          (beforeColon (pyRstrip raw)) (pyStrip (afterColon (pyRstrip raw))) =
          .error .nameError := by
        unfold multilineBranch
        rw [if_neg hlabel]
      simp only [extract_loop]
      rw [if_neg hcomment, hcol6]
      rw [if_neg (by simp)]
      rw [if_pos rfl, hmb]
    · have hjlt : j < i := by omega
      rcases hbefore j (List.mem_range.mpr hjlt) with hcmt | ⟨hsome, hnot6⟩
      · rw [hline] at hcmt
        simp only [extract_loop]
        rw [if_pos hcmt]
        exact ih (j + 1) d hdrop' (by omega)
      · rw [hline] at hsome hnot6
        by_cases hcmt2 : pyStartsWith (pyRstrip raw) "\\" = true
        · simp only [extract_loop]
          rw [if_pos hcmt2]
          exact ih (j + 1) d hdrop' (by omega)
        · obtain ⟨c, hc⟩ := Option.isSome_iff_exists.mp hsome
          rw [hc] at hnot6
          simp only [extract_loop]
          rw [if_neg hcmt2, hc]
          rw [if_neg (by simp)]
          rw [if_neg hnot6]
          cases halk : alookup nameMap (beforeColon (pyRstrip raw)) with
          | some dict_name => exact ih (j + 1) _ hdrop' (by omega)
          | none => exact ih (j + 1) d hdrop' (by omega)

end MedPC

namespace MedPC

/-- Witness for C10: a slice whose first fixed-column line is `"     5: …"`
(no index-0 line before it) makes extraction fail with the name error. -/
theorem parse_session_lines_unbound_name_witness :
    (1 : Nat) < (["Start Date: 04/18/19\n", "     5: 1.0\n"] : List String).length ∧
    parse_session_lines [("A", "port_entry_times")]
      ["Start Date: 04/18/19\n", "     5: 1.0\n"] = .error .nameError :=
  ⟨by decide,
    parse_session_lines_unbound_name [("A", "port_entry_times")]
      ["Start Date: 04/18/19\n", "     5: 1.0\n"] 1 (by decide) (by decide) (by decide)
      (by decide) (by decide)⟩

/-! ## Lemmas on association lists for `get_medpc_variables` -/

theorem alookup_mem {α : Type} :
    ∀ (l : List (String × α)) (k : String) (v : α), alookup l k = some v → (k, v) ∈ l := by
  intro l
  induction l with
  | nil => intro k v h; cases h
  | cons kv rest ih =>
    intro k v h
    obtain ⟨a, b⟩ := kv
    simp only [alookup] at h
    by_cases hak : a = k
    · rw [if_pos hak] at h
      cases h
      subst hak
      exact List.mem_cons_self _ _
    · rw [if_neg hak] at h
      exact List.mem_cons_of_mem _ (ih k v h)

theorem alookup_append {α : Type} :
    ∀ (l1 l2 : List (String × α)) (k : String),
      alookup (l1 ++ l2) k =
        match alookup l1 k with
        | some v => some v
        | none => alookup l2 k := by
  intro l1
  induction l1 with
  | nil => intro l2 k; rfl
  | cons kv rest ih =>
    intro l2 k
    obtain ⟨a, b⟩ := kv
    simp only [List.cons_append, alookup]
    by_cases hak : a = k
    · rw [if_pos hak, if_pos hak]
    · rw [if_neg hak, if_neg hak]
      exact ih l2 k

theorem alookup_updateAssoc {α : Type} :
    ∀ (d : List (String × α)) (k : String) (v : α) (q : String),
      alookup (updateAssoc d k v) q = if k = q then some v else alookup d q := by
  intro d
  induction d with
  | nil =>
    intro k v q
    simp only [updateAssoc, alookup]
  | cons kv rest ih =>
    intro k v q
    obtain ⟨a, b⟩ := kv
    simp only [updateAssoc]
    by_cases hak : a = k
    · rw [if_pos hak]
      simp only [alookup]
      by_cases hkq : k = q
      · rw [if_pos hkq, if_pos hkq]
      · rw [if_neg hkq, if_neg hkq, hak, if_neg hkq]
    · rw [if_neg hak]
      simp only [alookup]
      by_cases haq : a = q
      · rw [if_pos haq, if_neg (by intro h; rw [← h] at haq; exact hak haq), if_pos haq]
      · rw [if_neg haq, if_neg haq, ih]

/-- Pairwise-distinct variable names (what the spec's `set<string>` and a
Python dict's keys guarantee). -/
def namesDistinct : List String → Bool
  | [] => true
  | n :: rest => !(memS n rest) && namesDistinct rest

theorem alookup_gmvInit_aux :
    ∀ (names : List String) (acc : List (String × List String)),
      (∀ kv ∈ acc, kv.2 = ([] : List String)) →
      ∀ k, alookup (names.foldl
          (fun d n => if (alookup d n).isSome then d else d ++ [(n, [])]) acc) k =
        if ((alookup acc k).isSome || memS k names) then some [] else none := by
  intro names
  induction names with
  | nil =>
    intro acc hacc k
    simp only [List.foldl_nil, memS, Bool.or_false]
    cases h : alookup acc k with
    | none => simp [h]
    | some v =>
      have := hacc (k, v) (alookup_mem acc k v h)
      simp at this
      subst this
      simp [h]
  | cons n rest ih =>
    intro acc hacc k
    simp only [List.foldl_cons]
    by_cases hn : (alookup acc n).isSome = true
    · rw [if_pos hn, ih acc hacc k]
      by_cases hnk : n = k
      · subst hnk
        simp [hn, memS]
      · have : memS k (n :: rest) = memS k rest := by
          simp [memS, if_neg hnk]
        rw [this]
    · rw [if_neg hn]
      have hacc' : ∀ kv ∈ acc ++ [(n, [])], kv.2 = ([] : List String) := by
        intro kv hkv
        rcases List.mem_append.mp hkv with h | h
        · exact hacc kv h
        · simp at h
          rw [h]
      rw [ih (acc ++ [(n, [])]) hacc' k]
      have hl := alookup_append acc [(n, ([] : List String))] k
      have hmemcons : memS k (n :: rest) = if n = k then true else memS k rest := rfl
      rw [hl, hmemcons]
      by_cases hnk : n = k
      · cases h : alookup acc k with
        | none => simp [alookup, if_pos hnk]
        | some v => simp [if_pos hnk]
      · cases h : alookup acc k with
        | none => simp [alookup, if_neg hnk]
        | some v => simp [if_neg hnk]

theorem alookup_gmvInit (names : List String) (k : String) :
    alookup (gmvInit names) k = if memS k names then some [] else none := by
  have := alookup_gmvInit_aux names [] (by intro kv h; cases h) k
  simpa [gmvInit, alookup] using this

end MedPC

namespace MedPC

theorem gmvLine_alookup (line : String) :
    ∀ (names : List String) (d : List (String × List String)),
      namesDistinct names = true →
      (∀ n ∈ names, pyStartsWith line n = true → (firstColonIdx line).isSome = true) →
      (∀ n ∈ names, (alookup d n).isSome = true) →
      ∃ d', gmvLine line names d = .ok d' ∧
        ∀ k, alookup d' k =
          if memS k names && pyStartsWith line k then
            (alookup d k).map (fun vs => vs ++ [pyStrip (afterColon line)])
          else alookup d k := by
  intro names
  induction names with
  | nil =>
    intro d _ _ _
    exact ⟨d, rfl, fun k => by simp [memS]⟩
  | cons n rest ih =>
    intro d hnd hcol hsome
    have hndr : namesDistinct rest = true := by
      simp only [namesDistinct, Bool.and_eq_true] at hnd
      exact hnd.2
    have hnmem : memS n rest = false := by
      simp only [namesDistinct, Bool.and_eq_true, Bool.not_eq_true'] at hnd
      exact hnd.1
    have hmemcons : ∀ k, memS k (n :: rest) = if n = k then true else memS k rest :=
      fun k => rfl
    by_cases hsw : pyStartsWith line n = true
    · have hcolon := hcol n (List.mem_cons_self n rest) hsw
      obtain ⟨vs, hvs⟩ := Option.isSome_iff_exists.mp (hsome n (List.mem_cons_self n rest))
      have hsome1 : ∀ m ∈ rest, (alookup (updateAssoc d n (vs ++ [pyStrip (afterColon line)])) m).isSome = true := by
        intro m hm
        rw [alookup_updateAssoc]
        by_cases h : n = m
        · rw [if_pos h]; rfl
        · rw [if_neg h]; exact hsome m (List.mem_cons_of_mem n hm)
      obtain ⟨d', hrun, hpt⟩ := ih (updateAssoc d n (vs ++ [pyStrip (afterColon line)])) hndr
        (fun m hm => hcol m (List.mem_cons_of_mem n hm)) hsome1
      refine ⟨d', ?_, ?_⟩
      · simp only [gmvLine, gmvAppend]
        rw [if_pos hsw, if_pos hcolon, hvs]
        exact hrun
      · intro k
        rw [hpt k, hmemcons k]
        by_cases hnk : n = k
        · subst hnk
          rw [if_pos rfl]
          simp only [Bool.true_and]
          rw [hnmem]
          simp only [Bool.false_and, if_false, Bool.false_eq_true]
          rw [alookup_updateAssoc, if_pos rfl, hvs]
          simp [hsw]
        · rw [if_neg hnk, alookup_updateAssoc, if_neg hnk]
    · obtain ⟨d', hrun, hpt⟩ := ih d hndr (fun m hm => hcol m (List.mem_cons_of_mem n hm))
        (fun m hm => hsome m (List.mem_cons_of_mem n hm))
      refine ⟨d', ?_, ?_⟩
      · simp only [gmvLine]
        rw [if_neg hsw]
        exact hrun
      · intro k
        rw [hpt k, hmemcons k]
        by_cases hnk : n = k
        · subst hnk
          rw [if_pos rfl]
          simp only [Bool.true_and]
          rw [hnmem]
          simp only [Bool.false_and, if_false, Bool.false_eq_true]
          simp [Bool.not_eq_true] at hsw
          simp [hsw]
        · rw [if_neg hnk]

theorem gmvLoop_alookup (names : List String) (hnd : namesDistinct names = true) :
    ∀ (lines : List String) (d : List (String × List String)),
      (∀ l ∈ lines, ∀ n ∈ names, pyStartsWith l n = true → (firstColonIdx l).isSome = true) →
      (∀ n ∈ names, (alookup d n).isSome = true) →
      ∃ d', gmvLoop names lines d = .ok d' ∧
        ∀ k, memS k names = true →
          alookup d' k = (alookup d k).map (fun vs =>
            vs ++ (lines.filter (fun l => pyStartsWith l k)).map
              (fun l => pyStrip (afterColon l))) := by
  intro lines
  induction lines with
  | nil =>
    intro d _ _
    refine ⟨d, rfl, fun k _ => ?_⟩
    cases h : alookup d k <;> simp
  | cons l ls ih =>
    intro d hcol hsome
    obtain ⟨d1, hrun1, hpt1⟩ := gmvLine_alookup l names d hnd
      (hcol l (List.mem_cons_self l ls)) hsome
    have hsome1 : ∀ n ∈ names, (alookup d1 n).isSome = true := by
      intro n hn
      rw [hpt1 n]
      by_cases h : (memS n names && pyStartsWith l n) = true
      · rw [if_pos h]
        obtain ⟨vs, hvs⟩ := Option.isSome_iff_exists.mp (hsome n hn)
        rw [hvs]
        rfl
      · rw [if_neg h]
        exact hsome n hn
    obtain ⟨d', hrun, hpt⟩ := ih d1 (fun m hm => hcol m (List.mem_cons_of_mem l hm)) hsome1
    refine ⟨d', ?_, ?_⟩
    · simp only [gmvLoop]
      rw [hrun1]
      exact hrun
    · intro k hk
      rw [hpt k hk, hpt1 k, List.filter_cons]
      by_cases hsw : pyStartsWith l k = true
      · rw [if_pos (by simp [hk, hsw])]
        rw [if_pos hsw]
        cases h : alookup d k with
        | none => simp
        | some vs => simp
      · rw [if_neg (by rw [hk, Bool.true_and]; exact hsw)]
        rw [if_neg hsw]

/-- C8 (counterexample): the selection test is `line.startswith(name)` with
**no colon appended**: the line `"BoxFan: 3\n"` does not begin with
`"Box:"`, yet requesting variable `"Box"` collects its value `"3"`. -/
theorem get_medpc_variables_prefix_cex :
    pyStartsWith "BoxFan: 3\n" ("Box" ++ ":") = false ∧
    get_medpc_variables ["BoxFan: 3\n"] ["Box"] = .ok [("Box", ["3"])] :=
  ⟨by decide, by decide⟩

/-- C8 (amended): for every file and every set of requested (distinct)
variable names, provided each selected line contains a colon,
`get_medpc_variables` returns for each requested label the ordered list (in
file order) of values of all lines whose prefix equals the **bare** label
`"{name}"` (the colon is not part of the prefix test), each value being the
text after the line's first colon stripped of surrounding whitespace.  (A
selected line with no colon would instead raise an `IndexError`.) -/
theorem get_medpc_variables_values
    (lines : List String) (names : List String)
    (hnd : namesDistinct names = true)
    (hcol : ∀ l ∈ lines, ∀ n ∈ names, pyStartsWith l n = true → (firstColonIdx l).isSome = true) :
    ∃ d, get_medpc_variables lines names = .ok d ∧
      ∀ n ∈ names, alookup d n =
        some ((lines.filter (fun l => pyStartsWith l n)).map
          (fun l => pyStrip (afterColon l))) := by
  have hinit : ∀ n ∈ names, (alookup (gmvInit names) n).isSome = true := by
    intro n hn
    rw [alookup_gmvInit, if_pos ((memS_iff n names).mpr hn)]
    rfl
  obtain ⟨d, hrun, hpt⟩ := gmvLoop_alookup names hnd lines (gmvInit names) hcol hinit
  refine ⟨d, hrun, ?_⟩
  intro n hn
  rw [hpt n ((memS_iff n names).mpr hn), alookup_gmvInit,
    if_pos ((memS_iff n names).mpr hn)]
  simp

/-- Witness for the amended C8 on a concrete two-session file: both
occurrences of `"Start Date"` are collected in file order. -/
theorem get_medpc_variables_values_witness :
    namesDistinct ["Start Date"] = true ∧
    (∃ d, get_medpc_variables ["Start Date: 04/17/19\n", "Subject: 95\n", "Start Date: 04/18/19\n"]
        ["Start Date"] = .ok d ∧
      ∀ n ∈ (["Start Date"] : List String), alookup d n =
        some (((["Start Date: 04/17/19\n", "Subject: 95\n", "Start Date: 04/18/19\n"] : List String).filter
            (fun l => pyStartsWith l n)).map (fun l => pyStrip (afterColon l)))) :=
  ⟨by decide,
    get_medpc_variables_values
      ["Start Date: 04/17/19\n", "Subject: 95\n", "Start Date: 04/18/19\n"]
      ["Start Date"] (by decide) (by decide)⟩

end MedPC
